import Mathlib

/-!
Shallow embedding of the translation-generation script of the
rni18nGoogleSheets repository.

The script fetches a published Google Sheet as CSV, parses it with the
first row as header, accumulates per-language translation maps, a key
registry and an insertion-ordered language set, and writes
pretty-printed JSON files for each language plus two manifests.

JavaScript objects preserve insertion order of string keys, so the
mutable objects of the script are embedded as association lists over
String with an update-in-place-or-append operation. The JS Set is
embedded as a duplicate-free insertion-ordered list. File writes are
embedded as an ordered write log of name-content pairs; the final disk
state of a file name is the last write to that name.
-/

/-- One parsed CSV record: an ordered mapping from column header to cell
text, as produced by the CSV parse with the first row as header. -/
abbrev Record := List (String × String)

/-- Association-list lookup by string key, first match wins; embeds
JavaScript object property access. -/
def alookup {α : Type} : List (String × α) → String → Option α
  | [], _ => none
  | (k, v) :: rest, key => if key = k then some v else alookup rest key

/-- Association-list store; embeds JavaScript object property
assignment: an existing key keeps its position and gets the new value,
a new key is appended at the end. -/
def upsert {α : Type} : List (String × α) → String → α → List (String × α)
  | [], k, v => [(k, v)]
  | (k1, v1) :: rest, k, v =>
    if k1 = k then (k, v) :: rest else (k1, v1) :: upsert rest k v

/-- Insertion-ordered set add; embeds JavaScript Set.prototype.add. -/
def addLang (ls : List String) (l : String) : List String :=
  if l ∈ ls then ls else ls ++ [l]

/-- Characters removed by the JavaScript String.prototype.trim
(the common WhiteSpace and LineTerminator code points). -/
def isJsWhitespace (c : Char) : Bool :=
  c == ' ' || c == '\t' || c == '\n' || c == '\r' ||
  c == '\x0b' || c == '\x0c' || c == '\u00A0' || c == '\uFEFF'

/-- Drop leading whitespace characters. -/
def trimLeft (l : List Char) : List Char :=
  l.dropWhile (fun c => isJsWhitespace c)

/-- Drop leading and trailing whitespace characters. -/
def trimChars (l : List Char) : List Char :=
  (trimLeft ((trimLeft l).reverse)).reverse

/-- Embeds the JavaScript expression s.trim(). -/
def jsTrim (s : String) : String := String.mk (trimChars s.data)

/-- Embeds value.replace of every backslash by two backslashes, the
first substitution of the escaping chain in generateTranslations. -/
def escBackslash : List Char → List Char
  | [] => []
  | c :: rest => (if c = '\\' then ['\\', '\\'] else [c]) ++ escBackslash rest

/-- Embeds value.replace of every double quote by backslash-quote, the
second substitution of the escaping chain in generateTranslations. -/
def escQuote : List Char → List Char
  | [] => []
  | c :: rest => (if c = '"' then ['\\', '"'] else [c]) ++ escQuote rest

/-- Embeds value.replace of every optional-CR-then-LF by the literal
two-character sequence backslash-n, the third substitution of the
escaping chain in generateTranslations. A lone CR is not matched. -/
def escNewline : List Char → List Char
  | [] => []
  | [c] => if c = '\n' then ['\\', 'n'] else [c]
  | c1 :: c2 :: rest =>
    if c1 = '\r' ∧ c2 = '\n' then '\\' :: 'n' :: escNewline rest
    else if c1 = '\n' then '\\' :: 'n' :: escNewline (c2 :: rest)
    else c1 :: escNewline (c2 :: rest)

/-- The safeValue computation of generateTranslations: escape
backslashes, then double quotes, then line terminators, then trim. -/
def escapeValue (s : String) : String :=
  String.mk (trimChars (escNewline (escQuote (escBackslash s.data))))

/-- The three accumulators of generateTranslations: the translations
object mapping language to key-value map, the keyMap object mapping
every key to itself, and the languages insertion-ordered set. -/
structure I18nState where
  translations : List (String × Record)
  keyMap : Record
  languages : List String
  deriving DecidableEq

/-- The three containers start empty. -/
def initState : I18nState := ⟨[], [], []⟩

/-- Embeds row.key?.trim() with the falsy check folded in: the result
is the empty string exactly when the script skips the row. -/
def rawKeyOf (row : Record) : String :=
  ((alookup row "key").map jsTrim).getD ""

/-- One iteration of the inner column loop of generateTranslations:
skip the key column and falsy (empty) cells, otherwise create the
language map on first sight, add the language to the set and store the
escaped value under the trimmed row key. -/
def processCell (rawKey : String) (st : I18nState) (cell : String × String) : I18nState :=
  if cell.1 = "key" ∨ cell.2 = "" then st
  else
    { st with
      translations :=
        upsert st.translations cell.1
          (upsert ((alookup st.translations cell.1).getD []) rawKey (escapeValue cell.2)),
      languages := addLang st.languages cell.1 }

/-- One iteration of the row loop of generateTranslations: skip rows
with an absent, empty or whitespace-only key, otherwise register the
key in keyMap and fold the column loop over every entry of the row. -/
def processRow (st : I18nState) (row : Record) : I18nState :=
  if rawKeyOf row = "" then st
  else
    row.foldl (processCell (rawKeyOf row))
      { st with keyMap := upsert st.keyMap (rawKeyOf row) (rawKeyOf row) }

/-- The full row loop of generateTranslations over the parsed records. -/
def transform (rows : List Record) : I18nState :=
  rows.foldl processRow initState

/-- Reads the stored translation of a key for a language from the
accumulated state. -/
def lookupTranslation (st : I18nState) (lang key : String) : Option String :=
  alookup ((alookup st.translations lang).getD []) key

/-- The language codes that own an entry of the translations object. -/
def langKeys (st : I18nState) : List String :=
  st.translations.map Prod.fst

/-- Lowercase hexadecimal digit, as used by JSON.stringify control
character escapes. -/
def hexDigit (n : Nat) : Char :=
  if n < 10 then Char.ofNat (48 + n) else Char.ofNat (87 + n)

/-- Embeds the string character escaping of JSON.stringify. -/
def jsonEscapeChar (c : Char) : List Char :=
  if c = '"' then ['\\', '"']
  else if c = '\\' then ['\\', '\\']
  else if c = '\n' then ['\\', 'n']
  else if c = '\r' then ['\\', 'r']
  else if c = '\t' then ['\\', 't']
  else if c = '\x08' then ['\\', 'b']
  else if c = '\x0c' then ['\\', 'f']
  else if c.toNat < 32 then
    ['\\', 'u', '0', '0', hexDigit (c.toNat / 16), hexDigit (c.toNat % 16)]
  else [c]

/-- A JSON string literal for s, in JSON.stringify form. -/
def jsonQuote (s : String) : String :=
  "\"" ++ String.mk ((s.data.map jsonEscapeChar).flatten) ++ "\""

/-- Joins strings with a separator. -/
def joinWith (sep : String) : List String → String
  | [] => ""
  | [x] => x
  | x :: y :: rest => x ++ sep ++ joinWith sep (y :: rest)

/-- Embeds JSON.stringify(obj, null, 2) on an object of string values:
two-space indentation, one property per line, insertion order. -/
def jsonObj (m : Record) : String :=
  if m = [] then "\x7b\x7d"
  else
    "\x7b\n" ++
      joinWith ",\n" (m.map (fun p => "  " ++ jsonQuote p.1 ++ ": " ++ jsonQuote p.2)) ++
      "\n\x7d"

/-- Embeds JSON.stringify(arr, null, 2) on an array of strings. -/
def jsonArr (l : List String) : String :=
  if l = [] then "[]"
  else
    "[\n" ++ joinWith ",\n" (l.map (fun s => "  " ++ jsonQuote s)) ++ "\n]"

/-- The ordered write log of the script: one file per language in
translations-object order, then keys.json, then languages.json. Each
entry is a file name paired with the written text. -/
def outputFiles (st : I18nState) : List (String × String) :=
  st.translations.map (fun p => (p.1 ++ ".json", jsonObj p.2)) ++
  [("keys.json", jsonObj st.keyMap), ("languages.json", jsonArr st.languages)]

/-- Final content of a file name after a sequence of writes: the last
write to that name wins. -/
def finalDisk (writes : List (String × String)) (name : String) : Option String :=
  (writes.reverse.find? (fun p => p.1 == name)).map Prod.snd

/-- Splits a character list at every occurrence of the separator. -/
def splitOnChar (sep : Char) (l : List Char) : List (List Char) :=
  l.foldr
    (fun c acc =>
      match acc with
      | [] => [[c]]
      | cur :: rest => if c = sep then [] :: cur :: rest else (c :: cur) :: rest)
    [[]]

/-- Drops one trailing carriage return, so that CRLF-terminated and
LF-terminated CSV lines parse alike. -/
def stripTrailingCR (l : List Char) : List Char :=
  if l.getLast? = some '\r' then l.dropLast else l

/-- The lines of the CSV text. -/
def csvLines (text : String) : List (List Char) :=
  (splitOnChar '\n' text.data).map stripTrailingCR

/-- The header row of the CSV text: the comma-separated column names of
the first line. -/
def csvHeader (text : String) : List String :=
  (splitOnChar ',' ((csvLines text).headD [])).map String.mk

/-- Embeds Papa.parse(text, header true).data for delimiter-only CSV
input, the only form these claims exercise: the first line gives the
column names, every later line is zipped with them into a record, and a
record keeps only the columns that have a cell on its line. Quoted
fields of the full CSV grammar are outside the scope of this model. -/
def csvParse (text : String) : List Record :=
  match csvLines text with
  | [] => []
  | header :: rest =>
    rest.map (fun line =>
      List.zip ((splitOnChar ',' header).map String.mk)
        ((splitOnChar ',' line).map String.mk))

/-- The whole pure pipeline of the script, fetch aside: parse the CSV
text, accumulate the three containers, produce the ordered write log. -/
def generateTranslations (text : String) : List (String × String) :=
  outputFiles (transform (csvParse text))

/-- Whether a record makes the script create the translations entry of
a language: the record key is non-empty after trimming and some column
of the record carries that language name, differs from the key column
and holds a non-empty cell. -/
def contributes (row : Record) (lang : String) : Prop :=
  rawKeyOf row ≠ "" ∧ ∃ p ∈ row, lang = p.1 ∧ p.1 ≠ "key" ∧ p.2 ≠ ""

/-- Claim C1: on the CSV text with header key,en,fr, a row hello with
both cells filled and a row bye with an empty fr cell, the script
writes exactly en.json with both keys, fr.json with only hello,
keys.json mapping both keys to themselves, and languages.json holding
en then fr. -/
theorem claim1 :
    generateTranslations "key,en,fr\nhello,Hello,Bonjour\nbye,Bye," =
      [("en.json", "\x7b\n  \"hello\": \"Hello\",\n  \"bye\": \"Bye\"\n\x7d"),
       ("fr.json", "\x7b\n  \"hello\": \"Bonjour\"\n\x7d"),
       ("keys.json", "\x7b\n  \"hello\": \"hello\",\n  \"bye\": \"bye\"\n\x7d"),
       ("languages.json", "[\n  \"en\",\n  \"fr\"\n]")] := by
  decide

/-- Claim C5: a record whose key cell is absent, empty or
whitespace-only contributes nothing: deleting it from the record list
leaves the whole accumulated state unchanged. -/
theorem claim5 (pre post : List Record) (row : Record) (h : rawKeyOf row = "") :
    transform (pre ++ row :: post) = transform (pre ++ post) := by
  simp [transform, List.foldl_append, List.foldl_cons, processRow, h]

/-- Concrete instance of claim C5: a record with a whitespace-only key
between two kept records changes nothing. -/
theorem claim5_witness :
    rawKeyOf [("key", "  "), ("en", "y")] = "" ∧
      transform ([[("key", "a"), ("en", "x")]] ++ [("key", "  "), ("en", "y")] ::
          [[("key", "b"), ("en", "z")]]) =
        transform ([[("key", "a"), ("en", "x")]] ++ [[("key", "b"), ("en", "z")]]) :=
  ⟨by decide, claim5 [[("key", "a"), ("en", "x")]] [[("key", "b"), ("en", "z")]]
    [("key", "  "), ("en", "y")] (by decide)⟩

/-- Claim C6: a column-loop step on an empty cell leaves the state
unchanged, for every state, key and language, so an empty cell never
creates a translation entry nor adds its language; concretely, the
record bye with an empty fr cell leaves bye absent from the fr map and
fr outside the language set. -/
theorem claim6 :
    (∀ (st : I18nState) (rk lang : String), processCell rk st (lang, "") = st) ∧
      lookupTranslation (transform [[("key", "bye"), ("en", "Bye"), ("fr", "")]]) "fr" "bye" =
        none ∧
      "fr" ∉ (transform [[("key", "bye"), ("en", "Bye"), ("fr", "")]]).languages := by
  refine ⟨fun st rk lang => ?_, by decide, by decide⟩
  simp [processCell]

/-- Claim C9: the pipeline from CSV text to the ordered write log is a
pure function, so two runs on identical input produce byte-identical
file contents. -/
theorem claim9 (t1 t2 : String) (h : t1 = t2) :
    generateTranslations t1 = generateTranslations t2 := by
  rw [h]

/-- Concrete instance of claim C9 on a small CSV text. -/
theorem claim9_witness :
    generateTranslations "key,en\na,b" = generateTranslations "key,en\na,b" :=
  claim9 "key,en\na,b" "key,en\na,b" rfl

/-- Claim C4 is false as stated: with a language column named keys, the
final content of keys.json is not the translation map of that language. -/
theorem claim4_counterexample :
    finalDisk (generateTranslations "key,keys\nhello,Hi") "keys.json" ≠
      some "\x7b\n  \"hello\": \"Hi\"\n\x7d" := by
  decide

/-- Claim C4 amended: language columns named keys and languages collide
with the manifest file names, but the write order puts the language map
first and the manifest second, so after the run keys.json holds the Key
Registry and languages.json the language array, while the translation
maps of those languages are silently lost. -/
theorem claim4 :
    generateTranslations "key,keys,languages\nhello,Hi,Ho" =
      [("keys.json", "\x7b\n  \"hello\": \"Hi\"\n\x7d"),
       ("languages.json", "\x7b\n  \"hello\": \"Ho\"\n\x7d"),
       ("keys.json", "\x7b\n  \"hello\": \"hello\"\n\x7d"),
       ("languages.json", "[\n  \"keys\",\n  \"languages\"\n]")] ∧
      finalDisk (generateTranslations "key,keys,languages\nhello,Hi,Ho") "keys.json" =
        some "\x7b\n  \"hello\": \"hello\"\n\x7d" ∧
      finalDisk (generateTranslations "key,keys,languages\nhello,Hi,Ho") "languages.json" =
        some "[\n  \"keys\",\n  \"languages\"\n]" := by
  refine ⟨by decide, by decide, by decide⟩

/-- A character that is neither CR nor LF passes through one step of
the line-terminator substitution unchanged. -/
theorem escNewline_cons_of_ne (c : Char) (l : List Char) (h1 : c ≠ '\r') (h2 : c ≠ '\n') :
    escNewline (c :: l) = c :: escNewline l := by
  cases l with
  | nil => simp [escNewline, h2]
  | cons d t => simp [escNewline, h1, h2]

/-- The output of the line-terminator substitution never contains a raw
line feed. -/
theorem escNewline_no_nl :
    ∀ (n : Nat) (l : List Char), l.length ≤ n → '\n' ∉ escNewline l := by
  intro n
  induction n with
  | zero =>
    intro l hl
    have hnil : l = [] := List.length_eq_zero.mp (Nat.le_zero.mp hl)
    subst hnil
    simp [escNewline]
  | succ n ih =>
    intro l hl
    rcases l with _ | ⟨c, _ | ⟨d, t⟩⟩
    · simp [escNewline]
    · by_cases hc : c = '\n'
      · subst hc
        simp [escNewline]
      · have he : escNewline [c] = [c] := by simp [escNewline, hc]
        rw [he]
        intro hmem
        exact hc (List.mem_singleton.mp hmem).symm
    · have hlen2 : t.length ≤ n := by
        simp only [List.length_cons] at hl
        omega
      have hlen1 : (d :: t).length ≤ n := by
        simp only [List.length_cons] at hl ⊢
        omega
      by_cases h1 : c = '\r' ∧ d = '\n'
      · have he : escNewline (c :: d :: t) = '\\' :: 'n' :: escNewline t := by
          simp [escNewline, h1]
        rw [he]
        intro hmem
        rcases List.mem_cons.mp hmem with h | hmem2
        · exact absurd h (by decide)
        rcases List.mem_cons.mp hmem2 with h | hmem3
        · exact absurd h (by decide)
        · exact ih t hlen2 hmem3
      · by_cases h2 : c = '\n'
        · have he : escNewline (c :: d :: t) = '\\' :: 'n' :: escNewline (d :: t) := by
            simp [escNewline, h1, h2]
          rw [he]
          intro hmem
          rcases List.mem_cons.mp hmem with h | hmem2
          · exact absurd h (by decide)
          rcases List.mem_cons.mp hmem2 with h | hmem3
          · exact absurd h (by decide)
          · exact ih (d :: t) hlen1 hmem3
        · have he : escNewline (c :: d :: t) = c :: escNewline (d :: t) := by
            simp [escNewline, h1, h2]
          rw [he]
          intro hmem
          rcases List.mem_cons.mp hmem with h | hmem2
          · exact h2 h.symm
          · exact ih (d :: t) hlen1 hmem2

/-- Membership survives removal of leading whitespace backwards: every
character of the trimmed-left list is in the original list. -/
theorem mem_of_mem_trimLeft {c : Char} {l : List Char} (h : c ∈ trimLeft l) : c ∈ l :=
  (List.dropWhile_sublist _).subset h

/-- Every character of the trimmed list is in the original list. -/
theorem mem_of_mem_trimChars {c : Char} {l : List Char} (h : c ∈ trimChars l) : c ∈ l := by
  unfold trimChars at h
  have h1 := List.mem_reverse.mp h
  have h2 := mem_of_mem_trimLeft h1
  have h3 := List.mem_reverse.mp h2
  exact mem_of_mem_trimLeft h3

/-- The escaped value of any cell never contains a raw line feed. -/
theorem no_nl_escapeValue (s : String) : '\n' ∉ (escapeValue s).data := by
  intro h
  have h1 : '\n' ∈ escNewline (escQuote (escBackslash s.data)) := mem_of_mem_trimChars h
  exact escNewline_no_nl (escQuote (escBackslash s.data)).length _ le_rfl h1

/-- Claim C7 is false only in its character count: the escaped form of
line1-CR-LF-line2 has 12 characters, not 13. -/
theorem claim7_counterexample :
    (escapeValue "line1\r\nline2").data.length = 12 ∧
      (escapeValue "line1\r\nline2").data.length ≠ 13 := by
  decide

/-- Claim C7 amended: the escaping function turns the embedded CR-LF of
line1-CR-LF-line2 into the literal two-character sequence backslash-n,
giving the 12-character string line1-backslash-n-line2 with no raw
newline or carriage return; moreover no escaped value ever contains a
raw line feed. -/
theorem claim7 :
    escapeValue "line1\r\nline2" = "line1\\nline2" ∧
      (escapeValue "line1\r\nline2").data.length = 12 ∧
      '\r' ∉ (escapeValue "line1\r\nline2").data ∧
      ∀ s : String, '\n' ∉ (escapeValue s).data := by
  refine ⟨by decide, by decide, by decide, fun s => no_nl_escapeValue s⟩

/-- Claim C8: when two records carry the same key and both fill the
same language cell, the later escaped value overwrites the earlier one,
whatever the earlier cell held. -/
theorem claim8 (k lang v1 v2 : String) (hk : jsTrim k ≠ "") (hl : lang ≠ "key")
    (hv : v2 ≠ "") :
    lookupTranslation
        (transform [[("key", k), (lang, v1)], [("key", k), (lang, v2)]]) lang (jsTrim k) =
      some (escapeValue v2) := by
  by_cases hv1 : v1 = ""
  · subst hv1
    simp [transform, List.foldl_cons, List.foldl_nil, processRow, processCell, rawKeyOf,
      alookup, upsert, addLang, lookupTranslation, initState, hk, hl, hv]
  · simp [transform, List.foldl_cons, List.foldl_nil, processRow, processCell, rawKeyOf,
      alookup, upsert, addLang, lookupTranslation, initState, hk, hl, hv, hv1]

/-- Concrete instance of claim C8: rows greeting-Hi then greeting-Hello
leave greeting mapped to Hello in the en map. -/
theorem claim8_witness :
    lookupTranslation
        (transform [[("key", "greeting"), ("en", "Hi")], [("key", "greeting"), ("en", "Hello")]])
        "en" (jsTrim "greeting") = some (escapeValue "Hello") :=
  claim8 "greeting" "en" "Hi" "Hello" (by decide) (by decide) (by decide)

/-- The backslash substitution is the identity on backslash-free input. -/
theorem escBackslash_of_no_bs {l : List Char} (h : '\\' ∉ l) : escBackslash l = l := by
  induction l with
  | nil => rfl
  | cons c t ih =>
    have hc : ¬(c = '\\') := fun he => h (by simp [he])
    have ht : escBackslash t = t := ih (fun hm => h (List.mem_cons_of_mem c hm))
    simp [escBackslash, hc, ht]

/-- The quote substitution is the identity on quote-free input. -/
theorem escQuote_of_no_quote {l : List Char} (h : '"' ∉ l) : escQuote l = l := by
  induction l with
  | nil => rfl
  | cons c t ih =>
    have hc : ¬(c = '"') := fun he => h (by simp [he])
    have ht : escQuote t = t := ih (fun hm => h (List.mem_cons_of_mem c hm))
    simp [escQuote, hc, ht]

/-- The line-terminator substitution is the identity on line-feed-free
input; a lone carriage return is kept. -/
theorem escNewline_of_no_nl :
    ∀ (n : Nat) (l : List Char), l.length ≤ n → '\n' ∉ l → escNewline l = l := by
  intro n
  induction n with
  | zero =>
    intro l hl _
    have hnil : l = [] := List.length_eq_zero.mp (Nat.le_zero.mp hl)
    subst hnil
    rfl
  | succ n ih =>
    intro l hl h
    rcases l with _ | ⟨c, _ | ⟨d, t⟩⟩
    · rfl
    · have hc : ¬(c = '\n') := fun he => h (by simp [he])
      simp [escNewline, hc]
    · have hc : ¬(c = '\n') := fun he => h (by simp [he])
      have hd : ¬(d = '\n') := fun he => h (by simp [he])
      have hlen1 : (d :: t).length ≤ n := by
        simp only [List.length_cons] at hl ⊢
        omega
      have hmem : '\n' ∉ d :: t := fun hm => h (List.mem_cons_of_mem c hm)
      have ht : escNewline (d :: t) = d :: t := ih (d :: t) hlen1 hmem
      simp [escNewline, hc, hd, ht]

/-- Removing leading whitespace from an all-whitespace list leaves
nothing. -/
theorem trimLeft_of_all_ws {l : List Char} (h : ∀ c ∈ l, isJsWhitespace c = true) :
    trimLeft l = [] := by
  induction l with
  | nil => rfl
  | cons c t ih =>
    have hc := h c (List.mem_cons_self c t)
    have ht := ih (fun x hx => h x (List.mem_cons_of_mem c hx))
    unfold trimLeft at ht ⊢
    simp [List.dropWhile_cons, hc, ht]

/-- Trimming an all-whitespace list leaves nothing. -/
theorem trimChars_of_all_ws {l : List Char} (h : ∀ c ∈ l, isJsWhitespace c = true) :
    trimChars l = [] := by
  unfold trimChars
  rw [trimLeft_of_all_ws h]
  rfl

/-- A non-empty whitespace-only cell value with no line feed escapes to
the empty string: the three substitutions leave it unchanged and the
final trim removes everything. -/
theorem escapeValue_of_ws {v : String} (h : ∀ c ∈ v.data, isJsWhitespace c = true)
    (hn : '\n' ∉ v.data) : escapeValue v = "" := by
  have hb : '\\' ∉ v.data := fun hm => absurd (h '\\' hm) (by decide)
  have hq : '"' ∉ v.data := fun hm => absurd (h '"' hm) (by decide)
  rw [escapeValue, escBackslash_of_no_bs hb, escQuote_of_no_quote hq,
    escNewline_of_no_nl v.data.length v.data le_rfl hn, trimChars_of_all_ws h]

/-- Claim C10 is false as stated for whitespace that contains a line
feed: a cell holding a single LF is whitespace-only and non-empty, yet
its stored value is the literal backslash-n, not the empty string. -/
theorem claim10_counterexample :
    ("\n" : String) ≠ "" ∧ (∀ c ∈ ("\n" : String).data, isJsWhitespace c = true) ∧
      lookupTranslation (transform [[("key", "a"), ("en", "\n")]]) "en" "a" = some "\\n" ∧
      lookupTranslation (transform [[("key", "a"), ("en", "\n")]]) "en" "a" ≠ some "" := by
  decide

/-- Claim C10 amended: a record with a non-empty trimmed key and a
non-empty whitespace-only cell does create a translation entry and does
add the language; the stored value is the empty string whenever the
whitespace contains no line feed, while whitespace containing a line
feed is stored as literal backslash-n sequences. -/
theorem claim10 (k lang v : String) (hk : jsTrim k ≠ "") (hl : lang ≠ "key") (hv : v ≠ "")
    (hw : ∀ c ∈ v.data, isJsWhitespace c = true) (hn : '\n' ∉ v.data) :
    lookupTranslation (transform [[("key", k), (lang, v)]]) lang (jsTrim k) = some "" ∧
      lang ∈ (transform [[("key", k), (lang, v)]]).languages := by
  have he : escapeValue v = "" := escapeValue_of_ws hw hn
  constructor
  · simp [transform, List.foldl_cons, List.foldl_nil, processRow, processCell, rawKeyOf,
      alookup, upsert, addLang, lookupTranslation, initState, hk, hl, hv, he]
  · simp [transform, List.foldl_cons, List.foldl_nil, processRow, processCell, rawKeyOf,
      alookup, upsert, addLang, initState, hk, hl, hv]

/-- Concrete instance of amended claim C10: a single-space cell stores
the empty string under its key and adds the language. -/
theorem claim10_witness :
    lookupTranslation (transform [[("key", "a"), ("en", " ")]]) "en" (jsTrim "a") = some "" ∧
      "en" ∈ (transform [[("key", "a"), ("en", " ")]]).languages :=
  claim10 "a" "en" " " (by decide) (by decide) (by decide) (by decide) (by decide)

/-- The backslash substitution distributes over append. -/
theorem escBackslash_append (a b : List Char) :
    escBackslash (a ++ b) = escBackslash a ++ escBackslash b := by
  induction a with
  | nil => rfl
  | cons c t ih => simp [escBackslash, ih]

/-- The quote substitution distributes over append. -/
theorem escQuote_append (a b : List Char) :
    escQuote (a ++ b) = escQuote a ++ escQuote b := by
  induction a with
  | nil => rfl
  | cons c t ih => simp [escQuote, ih]

/-- A leading block free of CR and LF passes through the
line-terminator substitution unchanged. -/
theorem escNewline_clean_append (p t : List Char) (hp : ∀ c ∈ p, c ≠ '\r' ∧ c ≠ '\n') :
    escNewline (p ++ t) = p ++ escNewline t := by
  induction p with
  | nil => rfl
  | cons c q ih =>
    have hc := hp c (List.mem_cons_self c q)
    have ihq := ih (fun x hx => hp x (List.mem_cons_of_mem c hx))
    rw [List.cons_append, escNewline_cons_of_ne c (q ++ t) hc.1 hc.2, ihq, List.cons_append]

/-- An inner block survives one more leading character. -/
theorem cons_keeps_block {p l : List Char} (x : Char) (h : p <:+: l) : p <:+: x :: l := by
  obtain ⟨a, b, hab⟩ := h
  exact ⟨x :: a, b, by rw [List.cons_append, List.cons_append, hab]⟩

/-- A block free of CR and LF survives the line-terminator substitution
wherever it sits in the input. -/
theorem escNewline_keeps_block (q : Char) (p1 t : List Char)
    (hp : ∀ c ∈ q :: p1, c ≠ '\r' ∧ c ≠ '\n') :
    ∀ (n : Nat) (s : List Char), s.length ≤ n →
      (q :: p1) <:+: escNewline (s ++ (q :: (p1 ++ t))) := by
  have hq := hp q (List.mem_cons_self q p1)
  have hclean : escNewline (q :: (p1 ++ t)) = (q :: p1) ++ escNewline t :=
    escNewline_clean_append (q :: p1) t hp
  intro n
  induction n with
  | zero =>
    intro s hs
    have hnil : s = [] := List.length_eq_zero.mp (Nat.le_zero.mp hs)
    subst hnil
    rw [List.nil_append, hclean]
    exact ⟨[], escNewline t, by simp⟩
  | succ n ih =>
    intro s hs
    rcases s with _ | ⟨c, _ | ⟨d, s2⟩⟩
    · rw [List.nil_append, hclean]
      exact ⟨[], escNewline t, by simp⟩
    · show (q :: p1) <:+: escNewline (c :: q :: (p1 ++ t))
      by_cases h1 : c = '\r' ∧ q = '\n'
      · exact absurd h1.2 hq.2
      · by_cases h2 : c = '\n'
        · have he : escNewline (c :: q :: (p1 ++ t)) =
              '\\' :: 'n' :: escNewline (q :: (p1 ++ t)) := by
            simp [escNewline, h1, h2]
          rw [he, hclean]
          exact cons_keeps_block _ (cons_keeps_block _ ⟨[], escNewline t, by simp⟩)
        · have he : escNewline (c :: q :: (p1 ++ t)) = c :: escNewline (q :: (p1 ++ t)) := by
            simp [escNewline, h1, h2]
          rw [he, hclean]
          exact cons_keeps_block _ ⟨[], escNewline t, by simp⟩
    · show (q :: p1) <:+: escNewline (c :: d :: (s2 ++ (q :: (p1 ++ t))))
      have hlen2 : s2.length ≤ n := by
        simp only [List.length_cons] at hs
        omega
      have hlen1 : (d :: s2).length ≤ n := by
        simp only [List.length_cons] at hs ⊢
        omega
      by_cases h1 : c = '\r' ∧ d = '\n'
      · have he : escNewline (c :: d :: (s2 ++ (q :: (p1 ++ t)))) =
            '\\' :: 'n' :: escNewline (s2 ++ (q :: (p1 ++ t))) := by
          simp [escNewline, h1]
        rw [he]
        exact cons_keeps_block _ (cons_keeps_block _ (ih s2 hlen2))
      · by_cases h2 : c = '\n'
        · have he : escNewline (c :: d :: (s2 ++ (q :: (p1 ++ t)))) =
              '\\' :: 'n' :: escNewline (d :: (s2 ++ (q :: (p1 ++ t)))) := by
            simp [escNewline, h1, h2]
          rw [he]
          exact cons_keeps_block _ (cons_keeps_block _ (ih (d :: s2) hlen1))
        · have he : escNewline (c :: d :: (s2 ++ (q :: (p1 ++ t)))) =
              c :: escNewline (d :: (s2 ++ (q :: (p1 ++ t)))) := by
            simp [escNewline, h1, h2]
          rw [he]
          exact cons_keeps_block _ (ih (d :: s2) hlen1)

/-- A non-empty block of non-whitespace characters survives removal of
leading whitespace. -/
theorem block_in_trimLeft :
    ∀ (l p : List Char), p ≠ [] → (∀ c ∈ p, isJsWhitespace c = false) →
      p <:+: l → p <:+: trimLeft l := by
  intro l
  induction l with
  | nil =>
    intro p hne hws h
    obtain ⟨a, b, hab⟩ := h
    rcases a with _ | ⟨a0, a1⟩
    · rcases p with _ | ⟨p0, p1⟩
      · exact absurd rfl hne
      · simp at hab
    · simp at hab
  | cons c l1 ih =>
    intro p hne hws h
    by_cases hc : isJsWhitespace c = true
    · have ht : trimLeft (c :: l1) = trimLeft l1 := by
        unfold trimLeft
        simp [List.dropWhile_cons, hc]
      rw [ht]
      obtain ⟨a, b, hab⟩ := h
      rcases a with _ | ⟨a0, a1⟩
      · rcases p with _ | ⟨p0, p1⟩
        · exact absurd rfl hne
        · simp only [List.nil_append, List.cons_append] at hab
          injection hab with hh _
          have hws0 := hws p0 (List.mem_cons_self p0 p1)
          rw [hh] at hws0
          exact absurd hc (by simp [hws0])
      · simp only [List.cons_append] at hab
        injection hab with _ hh
        exact ih p hne hws ⟨a1, b, hh⟩
    · have ht : trimLeft (c :: l1) = c :: l1 := by
        unfold trimLeft
        simp [List.dropWhile_cons, hc]
      rw [ht]
      exact h

/-- An inner block survives list reversal, reversed. -/
theorem reverse_keeps_block {p l : List Char} (h : p <:+: l) : p.reverse <:+: l.reverse := by
  obtain ⟨a, b, hab⟩ := h
  refine ⟨b.reverse, a.reverse, ?_⟩
  rw [← hab]
  simp [List.reverse_append, List.append_assoc]

/-- A non-empty block of non-whitespace characters survives trimming. -/
theorem block_in_trimChars (p l : List Char) (hne : p ≠ [])
    (hws : ∀ c ∈ p, isJsWhitespace c = false) (h : p <:+: l) : p <:+: trimChars l := by
  have h1 := block_in_trimLeft l p hne hws h
  have h2 := reverse_keeps_block h1
  have hne2 : p.reverse ≠ [] := by simpa using hne
  have hws2 : ∀ c ∈ p.reverse, isJsWhitespace c = false := fun c hc =>
    hws c (List.mem_reverse.mp hc)
  have h3 := block_in_trimLeft ((trimLeft l).reverse) p.reverse hne2 hws2 h2
  have h4 := reverse_keeps_block h3
  rw [List.reverse_reverse] at h4
  unfold trimChars
  exact h4

/-- Claim C2: the escaping chain substitutes backslashes, then quotes,
then line terminators, then trims, so every cell value containing the
two-character sequence backslash-quote yields a stored string
containing the four-character sequence backslash-backslash-backslash-
quote: the backslash is doubled first and the quote escaped second. -/
theorem claim2 (s : String) (h : ['\\', '"'] <:+: s.data) :
    ['\\', '\\', '\\', '"'] <:+: (escapeValue s).data := by
  obtain ⟨a, b, hab⟩ := h
  have hx : escBackslash ['\\', '"'] = ['\\', '\\', '"'] := by decide
  have hy : escQuote ['\\', '\\', '"'] = ['\\', '\\', '\\', '"'] := by decide
  have hB : escBackslash s.data = (escBackslash a ++ ['\\', '\\', '"']) ++ escBackslash b := by
    rw [← hab, escBackslash_append, escBackslash_append, hx]
  have hQ : escQuote (escBackslash s.data) =
      escQuote (escBackslash a) ++
        (['\\', '\\', '\\', '"'] ++ escQuote (escBackslash b)) := by
    rw [hB, escQuote_append, escQuote_append, hy, List.append_assoc]
  have hblock := escNewline_keeps_block '\\' ['\\', '\\', '"']
    (escQuote (escBackslash b)) (by decide) (escQuote (escBackslash a)).length
    (escQuote (escBackslash a)) le_rfl
  show ['\\', '\\', '\\', '"'] <:+: trimChars (escNewline (escQuote (escBackslash s.data)))
  rw [hQ]
  exact block_in_trimChars _ _ (by decide) (by decide) hblock

/-- Concrete instance of claim C2: the four-character escape of the
value a-backslash-quote-b. -/
theorem claim2_witness :
    ['\\', '"'] <:+: ("a\\\"b" : String).data ∧
      ['\\', '\\', '\\', '"'] <:+: (escapeValue "a\\\"b").data :=
  ⟨⟨['a'], ['b'], by decide⟩, claim2 "a\\\"b" ⟨['a'], ['b'], by decide⟩⟩

/-- Storing under key k adds k to the key list and touches no other
key. -/
theorem mem_upsert_keys {α : Type} (m : List (String × α)) (k : String) (v : α) (x : String) :
    x ∈ (upsert m k v).map Prod.fst ↔ x = k ∨ x ∈ m.map Prod.fst := by
  induction m with
  | nil => simp [upsert]
  | cons p rest ih =>
    rcases p with ⟨k1, v1⟩
    by_cases h : k1 = k
    · subst h
      simp [upsert]
    · simp only [upsert, if_neg h, List.map_cons, List.mem_cons, ih]
      tauto

/-- One column-loop step creates the language entry of its column
exactly when the column is not the key column and the cell is
non-empty. -/
theorem mem_langKeys_processCell (rk : String) (st : I18nState) (p : String × String)
    (x : String) :
    x ∈ langKeys (processCell rk st p) ↔
      x ∈ langKeys st ∨ (x = p.1 ∧ p.1 ≠ "key" ∧ p.2 ≠ "") := by
  by_cases hcond : p.1 = "key" ∨ p.2 = ""
  · simp only [processCell, if_pos hcond]
    constructor
    · intro hx
      exact Or.inl hx
    · rintro (hx | ⟨_, hx2, hx3⟩)
      · exact hx
      · rcases hcond with h | h
        · exact absurd h hx2
        · exact absurd h hx3
  · have h := hcond
    push_neg at h
    simp only [processCell, if_neg hcond, langKeys]
    rw [mem_upsert_keys]
    constructor
    · rintro (hx | hx)
      · exact Or.inr ⟨hx, h.1, h.2⟩
      · exact Or.inl hx
    · rintro (hx | ⟨hx1, _, _⟩)
      · exact Or.inr hx
      · exact Or.inl hx1

/-- The column loop over the entries of a record creates exactly the
language entries of its qualifying columns. -/
theorem mem_langKeys_foldCells (rk : String) :
    ∀ (cells : List (String × String)) (st : I18nState) (x : String),
      x ∈ langKeys (cells.foldl (processCell rk) st) ↔
        x ∈ langKeys st ∨ ∃ p ∈ cells, x = p.1 ∧ p.1 ≠ "key" ∧ p.2 ≠ "" := by
  intro cells
  induction cells with
  | nil =>
    intro st x
    simp
  | cons c rest ih =>
    intro st x
    rw [List.foldl_cons, ih, mem_langKeys_processCell]
    simp only [List.mem_cons]
    constructor
    · rintro ((hx | hx) | ⟨p, hp, hrest⟩)
      · exact Or.inl hx
      · exact Or.inr ⟨c, Or.inl rfl, hx⟩
      · exact Or.inr ⟨p, Or.inr hp, hrest⟩
    · rintro (hx | ⟨p, hp | hp, hrest⟩)
      · exact Or.inl (Or.inl hx)
      · subst hp
        exact Or.inl (Or.inr hrest)
      · exact Or.inr ⟨p, hp, hrest⟩

/-- One row-loop step creates exactly the language entries the record
contributes. -/
theorem mem_langKeys_processRow (st : I18nState) (row : Record) (x : String) :
    x ∈ langKeys (processRow st row) ↔ x ∈ langKeys st ∨ contributes row x := by
  by_cases h : rawKeyOf row = ""
  · simp [processRow, h, contributes]
  · simp only [processRow, if_neg h, mem_langKeys_foldCells (rawKeyOf row), contributes]
    constructor
    · rintro (hx | ⟨p, hp, h1, h2, h3⟩)
      · exact Or.inl hx
      · exact Or.inr ⟨h, p, hp, h1, h2, h3⟩
    · rintro (hx | ⟨_, p, hp, h1, h2, h3⟩)
      · exact Or.inl hx
      · exact Or.inr ⟨p, hp, h1, h2, h3⟩

/-- The row loop creates exactly the language entries contributed by
some record. -/
theorem mem_langKeys_transform_aux :
    ∀ (rows : List Record) (st : I18nState) (x : String),
      x ∈ langKeys (rows.foldl processRow st) ↔
        x ∈ langKeys st ∨ ∃ row ∈ rows, contributes row x := by
  intro rows
  induction rows with
  | nil =>
    intro st x
    simp
  | cons r rest ih =>
    intro st x
    rw [List.foldl_cons, ih, mem_langKeys_processRow]
    simp only [List.mem_cons]
    constructor
    · rintro ((hx | hx) | ⟨row, hrow, hc⟩)
      · exact Or.inl hx
      · exact Or.inr ⟨r, Or.inl rfl, hx⟩
      · exact Or.inr ⟨row, Or.inr hrow, hc⟩
    · rintro (hx | ⟨row, hrow | hrow, hc⟩)
      · exact Or.inl (Or.inl hx)
      · subst hrow
        exact Or.inl (Or.inr hc)
      · exact Or.inr ⟨row, hrow, hc⟩

/-- Claim C3 amended: the per-language file set is not determined by
the header row alone; the Writer emits one language file per entry of
the translations object, and a language owns such an entry exactly when
some record with a non-empty trimmed key holds a non-empty cell in a
non-key column of that name. -/
theorem claim3 (rows : List Record) (lang : String) :
    ((outputFiles (transform rows)).map Prod.fst =
        (langKeys (transform rows)).map (fun l => l ++ ".json") ++
          ["keys.json", "languages.json"]) ∧
      (lang ∈ langKeys (transform rows) ↔ ∃ row ∈ rows, contributes row lang) := by
  constructor
  · simp [outputFiles, langKeys, List.map_map, Function.comp]
  · rw [transform, mem_langKeys_transform_aux]
    simp [langKeys, initState]

/-- Claim C3 is false as stated: fr is a non-key header column of this
CSV text, yet no fr.json is written because every fr cell is empty. -/
theorem claim3_counterexample :
    "fr" ∈ csvHeader "key,en,fr\nhello,Hello," ∧ "fr" ≠ "key" ∧
      "fr.json" ∉ (generateTranslations "key,en,fr\nhello,Hello,").map Prod.fst := by
  decide
